import Mathlib

/-!
Shallow embedding of the technical-indicator, signal-detection and
correlation code of the finance-tracker repository
(src/components/technical.py, src/components/comparison.py,
src/components/portfolio.py), together with theorems settling the
frozen claims about it.

Numeric model: prices are exact rationals.  Where the pandas code can
produce IEEE special values (NaN from 0/0 or a missing warm-up value,
infinities from division by zero) we compute in `EVal`, an extended
rational type with `nan`, `pinf`, `ninf` following IEEE-754 semantics
for the operations the code uses.  Where a computation stays finite a
plain `ℚ` (or `Option ℚ` for possibly-missing warm-up entries) is used.
-/

/-- Extended value: a rational, ±infinity, or NaN.  Models the IEEE-754
doubles that flow through the pandas code. -/
inductive EVal where
  | fin (q : ℚ)
  | pinf
  | ninf
  | nan
deriving DecidableEq

namespace EVal

def isNan : EVal → Bool
  | nan => true
  | _ => false

def neg : EVal → EVal
  | fin q => fin (-q)
  | pinf => ninf
  | ninf => pinf
  | nan => nan

def add : EVal → EVal → EVal
  | nan, _ => nan
  | _, nan => nan
  | fin a, fin b => fin (a + b)
  | fin _, pinf => pinf
  | fin _, ninf => ninf
  | pinf, fin _ => pinf
  | ninf, fin _ => ninf
  | pinf, pinf => pinf
  | ninf, ninf => ninf
  | pinf, ninf => nan
  | ninf, pinf => nan

def sub (a b : EVal) : EVal := add a b.neg

/-- IEEE division as numpy/pandas perform it elementwise: `0/0 = nan`,
`x/0 = ±inf` for finite nonzero `x`, finite/±inf = 0, inf/inf = nan. -/
def div : EVal → EVal → EVal
  | nan, _ => nan
  | _, nan => nan
  | fin a, fin b =>
      if b = 0 then (if a = 0 then nan else if 0 < a then pinf else ninf)
      else fin (a / b)
  | fin _, pinf => fin 0
  | fin _, ninf => fin 0
  | pinf, fin b => if 0 ≤ b then pinf else ninf
  | ninf, fin b => if 0 ≤ b then ninf else pinf
  | pinf, pinf => nan
  | pinf, ninf => nan
  | ninf, pinf => nan
  | ninf, ninf => nan

def abs : EVal → EVal
  | fin q => fin |q|
  | pinf => pinf
  | ninf => pinf
  | nan => nan

/-- `Series.clip(lower=0)`: elementwise `max(x, 0)`; NaN stays NaN. -/
def clipLower0 : EVal → EVal
  | fin q => fin (max q 0)
  | pinf => pinf
  | ninf => fin 0
  | nan => nan

/-- `Series.clip(upper=0)`: elementwise `min(x, 0)`; NaN stays NaN. -/
def clipUpper0 : EVal → EVal
  | fin q => fin (min q 0)
  | pinf => fin 0
  | ninf => ninf
  | nan => nan

/-- Max of two non-NaN extended values (order ninf < fin _ < pinf). -/
def maxNN : EVal → EVal → EVal
  | fin a, fin b => fin (max a b)
  | pinf, _ => pinf
  | _, pinf => pinf
  | ninf, b => b
  | a, ninf => a
  | nan, b => b
  | a, nan => a

/-- `DataFrame.max(axis=1)` combination step with the default
`skipna=True`: a NaN operand is ignored; NaN results only if all
operands are NaN. -/
def maxSkip : EVal → EVal → EVal
  | nan, b => b
  | a, nan => a
  | a, b => maxNN a b

end EVal

/-- `Series.diff()`: first entry NaN, then elementwise difference with
the previous entry. -/
def diffE (xs : List EVal) : List EVal :=
  match xs with
  | [] => []
  | x :: rest => EVal.nan :: List.zipWith EVal.sub rest (x :: rest)

/-- `Series.shift(1)`: NaN, then the series without its last entry. -/
def shiftE (xs : List EVal) : List EVal :=
  match xs with
  | [] => []
  | _ :: _ => EVal.nan :: xs.dropLast

/-- `Series.rolling(window=p).mean()`: NaN for the first `p-1` indices;
afterwards the mean of the trailing window of length `p`, NaN whenever
the window contains a NaN (the default `min_periods == window` means
each NaN observation in the window forces a NaN result). -/
def rollingMeanE (xs : List EVal) (p : Nat) : List EVal :=
  (List.range xs.length).map fun i =>
    if i + 1 < p then EVal.nan
    else
      let w := (xs.take (i + 1)).drop (i + 1 - p)
      if w.any EVal.isNan then EVal.nan
      else EVal.div (w.foldr EVal.add (EVal.fin 0)) (EVal.fin p)

/-- The final RSI map applied to one RS value:
`100 - (100 / (1 + rs))`. -/
def rsiOfRs (rs : EVal) : EVal :=
  EVal.sub (EVal.fin 100) (EVal.div (EVal.fin 100) (EVal.add (EVal.fin 1) rs))

/-- `calculate_rsi` of src/components/technical.py (the helper in
src/components/comparison.py computes the identical expression):
`delta = prices.diff(); gain = delta.clip(lower=0);
loss = -delta.clip(upper=0); avg_gain = gain.rolling(periods).mean();
avg_loss = loss.rolling(periods).mean(); rs = avg_gain / avg_loss;
rsi = 100 - (100 / (1 + rs))`. -/
def calculate_rsi (prices : List EVal) (periods : Nat) : List EVal :=
  let delta := diffE prices
  let gain := delta.map EVal.clipLower0
  let loss := delta.map fun d => (EVal.clipUpper0 d).neg
  let avg_gain := rollingMeanE gain periods
  let avg_loss := rollingMeanE loss periods
  let rs := List.zipWith EVal.div avg_gain avg_loss
  rs.map rsiOfRs

/-- `calculate_atr` of src/components/technical.py:
`close = df['Close'].shift(1); tr1 = high - low; tr2 = abs(high - close);
tr3 = abs(low - close);
tr = pd.DataFrame({'tr1','tr2','tr3'}).max(axis=1); atr = tr.rolling(window).mean()`.
The row-wise max skips NaN entries (`skipna=True` default). -/
def calculate_atr (high low close : List EVal) (window : Nat) : List EVal :=
  let closePrev := shiftE close
  let tr1 := List.zipWith EVal.sub high low
  let tr2 := (List.zipWith EVal.sub high closePrev).map EVal.abs
  let tr3 := (List.zipWith EVal.sub low closePrev).map EVal.abs
  let tr := List.zipWith EVal.maxSkip (List.zipWith EVal.maxSkip tr1 tr2) tr3
  rollingMeanE tr window

/-- A 16-bar series whose open, high, low and close all equal the close,
with the close alternating between 1 and 2: the inter-bar moves make the
true range 1 from the second bar on. -/
def altBars : List EVal :=
  [1, 2, 1, 2, 1, 2, 1, 2, 1, 2, 1, 2, 1, 2, 1, 2].map EVal.fin

/-!
Moving averages and crossover detection (src/components/technical.py,
`show_moving_averages`).  The close prices fed to `rolling(...).mean()`
are finite, so the only special value is the NaN warm-up of the moving
averages themselves; those entries are modelled as `none`.
-/

/-- `Series.rolling(window=w).mean()` on an all-finite series: `none`
(NaN) for the first `w-1` indices, afterwards the trailing-window mean. -/
def rollingMeanQ (xs : List ℚ) (w : Nat) : List (Option ℚ) :=
  (List.range xs.length).map fun i =>
    if i + 1 < w then none
    else some ((((xs.take (i + 1)).drop (i + 1 - w)).foldr (· + ·) 0) / w)

/-- `Series.shift(1)` on a possibly-NaN series. -/
def shiftO (xs : List (Option ℚ)) : List (Option ℚ) :=
  match xs with
  | [] => []
  | _ :: _ => none :: xs.dropLast

/-- pandas `>` on scalars: false when either side is NaN. -/
def optGT : Option ℚ → Option ℚ → Bool
  | some a, some b => decide (b < a)
  | _, _ => false

/-- pandas `<` on scalars: false when either side is NaN. -/
def optLT : Option ℚ → Option ℚ → Bool
  | some a, some b => decide (a < b)
  | _, _ => false

/-- pandas `<=` on scalars: false when either side is NaN. -/
def optLE : Option ℚ → Option ℚ → Bool
  | some a, some b => decide (a ≤ b)
  | _, _ => false

/-- pandas `>=` on scalars: false when either side is NaN. -/
def optGE : Option ℚ → Option ℚ → Bool
  | some a, some b => decide (b ≤ a)
  | _, _ => false

/-- `hist['Golden_Cross'] = (MA_50 > MA_200) & (MA_50.shift(1) <= MA_200.shift(1))`
as a Boolean series over the two moving-average columns. -/
def golden_cross (maShort maLong : List (Option ℚ)) : List Bool :=
  List.zipWith (· && ·)
    (List.zipWith optGT maShort maLong)
    (List.zipWith optLE (shiftO maShort) (shiftO maLong))

/-- `hist['Death_Cross'] = (MA_50 < MA_200) & (MA_50.shift(1) >= MA_200.shift(1))`. -/
def death_cross (maShort maLong : List (Option ℚ)) : List Bool :=
  List.zipWith (· && ·)
    (List.zipWith optLT maShort maLong)
    (List.zipWith optGE (shiftO maShort) (shiftO maLong))

/-- The whole `show_moving_averages` detection pipeline for one close
series: compute both moving averages, then the two crossover series. -/
def detect_crosses (close : List ℚ) (pShort pLong : Nat) : List Bool × List Bool :=
  let s := rollingMeanQ close pShort
  let l := rollingMeanQ close pLong
  (golden_cross s l, death_cross s l)

/-!
MACD and the "recent crossover" note (src/components/technical.py,
`calculate_macd` and the last-5-bars scan in `show_oscillators`).
All values stay finite, so plain `ℚ` is used; the `shift(1)` applied
*inside* the 5-bar tail is modelled on `Option ℚ` because its first
entry is NaN.
-/

/-- `Series.ewm(span=s, adjust=False).mean()`: seeded with the first
value, recurrence `e[t] = α*x[t] + (1-α)*e[t-1]` with `α = 2/(s+1)`. -/
def emaGo (α : ℚ) (prev : ℚ) : List ℚ → List ℚ
  | [] => []
  | x :: rest =>
      let e := α * x + (1 - α) * prev
      e :: emaGo α e rest

def ema (xs : List ℚ) (span : Nat) : List ℚ :=
  match xs with
  | [] => []
  | x :: rest => x :: emaGo (2 / (span + 1)) x rest

/-- `df['MACD'] = EMA_fast - EMA_slow` with the default spans 12/26. -/
def macd_line (close : List ℚ) : List ℚ :=
  List.zipWith (· - ·) (ema close 12) (ema close 26)

/-- `df['Signal'] = df['MACD'].ewm(span=9, adjust=False).mean()`. -/
def signal_line (close : List ℚ) : List ℚ :=
  ema (macd_line close) 9

/-- `hist.tail(5)`: the last five rows (the whole series when shorter). -/
def tail5 (xs : List ℚ) : List ℚ := xs.drop (xs.length - 5)

/-- `any((last_5['MACD'] > last_5['Signal']) & (last_5['MACD'].shift(1) <= last_5['Signal'].shift(1)))`:
the crossover scan runs inside the 5-row tail, so the shift feeds a NaN
previous value to the tail's first row. -/
def recent_bullish (close : List ℚ) : Bool :=
  let m := (tail5 (macd_line close)).map some
  let s := (tail5 (signal_line close)).map some
  (List.zipWith (· && ·)
    (List.zipWith optGT m s)
    (List.zipWith optLE (shiftO m) (shiftO s))).any id

/-- The mirror bearish scan over the 5-row tail. -/
def recent_bearish (close : List ℚ) : Bool :=
  let m := (tail5 (macd_line close)).map some
  let s := (tail5 (signal_line close)).map some
  (List.zipWith (· && ·)
    (List.zipWith optLT m s)
    (List.zipWith optGE (shiftO m) (shiftO s))).any id

/-- What the MACD interpretation block of `show_oscillators` prints
about recent crossovers: the bullish message when the bullish scan
fires, else the bearish message when the bearish scan fires, else
nothing (`if ... elif ...`). -/
inductive MacdNote where
  | bullishNote
  | bearishNote
  | quiet
deriving DecidableEq

def macd_recent_note (close : List ℚ) : MacdNote :=
  if recent_bullish close then .bullishNote
  else if recent_bearish close then .bearishNote
  else .quiet

/-!
Pivot points (src/components/technical.py, `identify_pivot_points`).
The result DataFrame is indexed by date; since dates are strictly
increasing, the bar position stands in for the date label.  Assigning
`pivot_points.loc[label] = row` replaces the row when the label exists
and appends it otherwise, which the embedding reproduces in `locSet`.
-/

inductive PivotType where
  | high
  | low
deriving DecidableEq

structure PivotRow where
  idx : Nat
  value : ℚ
  type : PivotType
deriving DecidableEq

/-- `pivot_points.loc[label] = row`: label-based row assignment, in
place when the label is present, appended otherwise. -/
def locSet (rows : List PivotRow) (r : PivotRow) : List PivotRow :=
  if rows.any (fun x => x.idx == r.idx) then
    rows.map fun x => if x.idx == r.idx then r else x
  else rows ++ [r]

/-- `all(high.iloc[i] > high.iloc[i-j] for j in 1..window) and
all(high.iloc[i] > high.iloc[i+j] for j in 1..window)`. -/
def isPivotHigh (high : List ℚ) (window i : Nat) : Bool :=
  ((List.range window).all fun j => decide (high.getD (i - (j + 1)) 0 < high.getD i 0)) &&
  ((List.range window).all fun j => decide (high.getD (i + (j + 1)) 0 < high.getD i 0))

/-- The mirror condition on the low series. -/
def isPivotLow (low : List ℚ) (window i : Nat) : Bool :=
  ((List.range window).all fun j => decide (low.getD i 0 < low.getD (i - (j + 1)) 0)) &&
  ((List.range window).all fun j => decide (low.getD i 0 < low.getD (i + (j + 1)) 0))

/-- `identify_pivot_points`: a first loop over
`i in range(window, len(df) - window)` records pivot highs, a second
identical loop records pivot lows; both write through `.loc`, so a bar
that qualifies twice ends up with its second (low) row. -/
def identify_pivot_points (high low : List ℚ) (window : Nat) : List PivotRow :=
  let idxs := List.range' window (high.length - window - window)
  let afterHighs := idxs.foldl
    (fun rows i =>
      if isPivotHigh high window i then locSet rows ⟨i, high.getD i 0, .high⟩ else rows)
    []
  idxs.foldl
    (fun rows i =>
      if isPivotLow low window i then locSet rows ⟨i, low.getD i 0, .low⟩ else rows)
    afterHighs

/-!
Support/resistance level clustering (src/components/technical.py,
`identify_strong_levels` with its inner `find_clusters` and `is_close`).
-/

/-- `is_close(p1, p2)`: `abs(p1 - p2) / p1 < 0.01`; the denominator is
the first argument, which at the call site is the incoming value, not
the cluster's last member. -/
def is_close (p1 p2 : ℚ) : Bool := decide (|p1 - p2| / p1 < 1 / 100)

/-- The mean reported for a finished cluster: `sum(cluster)/len(cluster)`. -/
def clusterMean (c : List ℚ) : ℚ := c.sum / c.length

/-- One finished cluster contributes a level exactly when it holds at
least two pivots. -/
def emitCluster (c : List ℚ) : List ℚ :=
  if 2 ≤ c.length then [clusterMean c] else []

/-- The loop body of `find_clusters`: `cur` is the running cluster with
its most recent member first (so `cur.headD 0` is `current_cluster[-1]`),
`acc` the clusters already closed. -/
def find_clusters_go (cur : List ℚ) (acc : List ℚ) : List ℚ → List ℚ
  | [] => acc ++ emitCluster cur
  | v :: rest =>
      if is_close v (cur.headD 0) then find_clusters_go (v :: cur) acc rest
      else find_clusters_go [v] (acc ++ emitCluster cur) rest

/-- Insertion of one element into a sorted list; `sortQ` below models
Python's `sorted`: on a totally ordered type the ascending rearrangement
is unique, so any correct sort gives the same list. -/
def insertSorted (x : ℚ) : List ℚ → List ℚ
  | [] => [x]
  | y :: ys => if x ≤ y then x :: y :: ys else y :: insertSorted x ys

def sortQ (l : List ℚ) : List ℚ := l.foldr insertSorted []

/-- `find_clusters(values)`: sort ascending, then a single greedy
left-to-right pass. -/
def find_clusters (values : List ℚ) : List ℚ :=
  match sortQ values with
  | [] => []
  | v :: rest => find_clusters_go [v] [] rest

/-- `identify_strong_levels(df, pivot_points)` clusters the list of all
pivot values. -/
def identify_strong_levels (pivots : List PivotRow) : List ℚ :=
  find_clusters (pivots.map PivotRow.value)

/-- Adjacent-run grouping of an ascending list: each maximal block in
which every element passes the code's `is_close` test against its
predecessor.  Written from the amended description of the clustering
pass, structurally unlike the accumulator loop above, to compare the
two. -/
def groupRuns : List ℚ → List (List ℚ)
  | [] => []
  | v :: rest =>
      match groupRuns rest with
      | [] => [[v]]
      | g :: gs =>
          match g with
          | [] => [v] :: gs
          | w :: _ => if is_close w v then (v :: g) :: gs else [v] :: g :: gs

/-- A finished group contributes a level iff it has ≥2 members. -/
def emitAll (groups : List (List ℚ)) : List ℚ :=
  (groups.filter fun g => 2 ≤ g.length).map clusterMean

/-- The clustering pass as described once amended: sort ascending, split
into maximal `is_close`-chained runs, keep runs of ≥2 pivots, report
each kept run's mean. -/
def clusters_spec (values : List ℚ) : List ℚ :=
  emitAll (groupRuns (sortQ values))

/-- Modelled from the claim's words: the incoming value is "within 1%
of the running cluster's last member", i.e. relative to that last
member (the code divides by the incoming value instead). -/
def is_close_claim (v last : ℚ) : Bool := decide (|v - last| / last < 1 / 100)

def find_clusters_claim_go (cur : List ℚ) (acc : List ℚ) : List ℚ → List ℚ
  | [] => acc ++ emitCluster cur
  | v :: rest =>
      if is_close_claim v (cur.headD 0) then find_clusters_claim_go (v :: cur) acc rest
      else find_clusters_claim_go [v] (acc ++ emitCluster cur) rest

/-- The clustering pass exactly as the claim words it, differing from
the code only in the denominator of the 1% test. -/
def find_clusters_claim (values : List ℚ) : List ℚ :=
  match sortQ values with
  | [] => []
  | v :: rest => find_clusters_claim_go [v] [] rest

/-- Bridge between the loop state of `find_clusters_go` (a running
cluster held in reverse, last member `x` first) and the run list of
`groupRuns`: the running cluster is merged into the first run when that
run's first element chains to `x`, and closed in front of it otherwise. -/
def mergeHead (x : ℚ) (xs : List ℚ) : List (List ℚ) → List (List ℚ)
  | [] => [(x :: xs).reverse]
  | g :: gs =>
      match g with
      | [] => (x :: xs).reverse :: gs
      | w :: _ =>
          if is_close w x then ((x :: xs).reverse ++ g) :: gs
          else (x :: xs).reverse :: g :: gs

/-!
Correlation analysis (src/components/comparison.py,
`show_correlation_analysis`).  A price series is a list of
(date, close) pairs with strictly increasing dates; dates are modelled
as naturals.  `pd.DataFrame(prices_data)` aligns the columns on the
sorted union of their date indexes (an outer join, `None` where a
column has no value); `returns = df.pct_change()` forward-fills before
differencing (`fill_method='pad'`, the default of the pandas versions
this code targets); `returns.corr()` computes each pairwise Pearson
coefficient over the rows where both columns of the pair are non-null.

A Pearson coefficient is kept as the pair
(n·Σxy − Σx·Σy, (n·Σx² − (Σx)²)·(n·Σy² − (Σy)²)): the coefficient is
`num / sqrt(denSq)`, so two entries with positive `denSq` are equal iff
their `num` signs agree and `num² · denSq` cross-multiply equally; this
keeps everything inside ℚ.
-/

abbrev PriceSeries := List (Nat × ℚ)

def insertSortedN (x : Nat) : List Nat → List Nat
  | [] => [x]
  | y :: ys => if x ≤ y then x :: y :: ys else y :: insertSortedN x ys

def sortN (l : List Nat) : List Nat := l.foldr insertSortedN []

/-- The sorted union of the date indexes of all columns, each date once:
the row index of `pd.DataFrame(prices_data)`. -/
def unionDates (cols : List PriceSeries) : List Nat :=
  sortN ((cols.map (·.map Prod.fst)).flatten).dedup

def lookupDate (s : PriceSeries) (d : Nat) : Option ℚ :=
  (s.find? fun p => p.1 == d).map Prod.snd

/-- One column of the outer-joined frame after forward-filling: at each
grid date the column's own value if present, else the most recent
earlier value (`None` before the first observation). -/
def padColumn (s : PriceSeries) : List Nat → Option ℚ → List (Option ℚ)
  | [], _ => []
  | d :: rest, last =>
      let cur := match lookupDate s d with
        | some v => some v
        | none => last
      cur :: padColumn s rest cur

/-- `pct_change()` on one filled column: `cur/prev - 1`, `None` at the
first row or where either value is still missing. -/
def pctChangeCol (vals : List (Option ℚ)) : List (Option ℚ) :=
  List.zipWith
    (fun cur prev =>
      match cur, prev with
      | some c, some p => some (c / p - 1)
      | _, _ => none)
    vals (shiftO vals)

/-- `returns = pd.DataFrame(prices_data).pct_change()`: one return
column per ticker over the union date grid. -/
def returnsFrame (cols : List PriceSeries) : List (List (Option ℚ)) :=
  let dates := unionDates cols
  cols.map fun s => pctChangeCol (padColumn s dates none)

/-- The rows where both columns of a pair are non-null — the
observations pandas `DataFrame.corr()` uses for that pair. -/
def pairedRows (xs ys : List (Option ℚ)) : List (ℚ × ℚ) :=
  (List.zip xs ys).filterMap fun p =>
    match p with
    | (some a, some b) => some (a, b)
    | _ => none

def sumQ (l : List ℚ) : ℚ := l.foldr (· + ·) 0

/-- Pearson numerator n·Σxy − Σx·Σy over a list of paired observations. -/
def corrNum (rows : List (ℚ × ℚ)) : ℚ :=
  (rows.length : ℚ) * sumQ (rows.map fun r => r.1 * r.2)
    - sumQ (rows.map Prod.fst) * sumQ (rows.map Prod.snd)

/-- Squared Pearson denominator (n·Σx² − (Σx)²)·(n·Σy² − (Σy)²). -/
def corrDenSq (rows : List (ℚ × ℚ)) : ℚ :=
  ((rows.length : ℚ) * sumQ (rows.map fun r => r.1 * r.1)
      - sumQ (rows.map Prod.fst) * sumQ (rows.map Prod.fst))
    * ((rows.length : ℚ) * sumQ (rows.map fun r => r.2 * r.2)
      - sumQ (rows.map Prod.snd) * sumQ (rows.map Prod.snd))

/-- The (i, j) entry of `returns.corr()`, as the rational pair standing
for the Pearson coefficient over that pair's non-null rows. -/
def corrStat (cols : List PriceSeries) (i j : Nat) : ℚ × ℚ :=
  let frame := returnsFrame cols
  let rows := pairedRows (frame.getD i []) (frame.getD j [])
  (corrNum rows, corrDenSq rows)

/-- The observable outcome of `show_correlation_analysis`: either the
"No data available for correlation analysis" message, or a rendered
n×n correlation matrix over the tickers that had data. -/
inductive CorrOutcome where
  | noData
  | matrixShown (tickers : List String) (stats : List (List (ℚ × ℚ)))
deriving DecidableEq

/-- `show_correlation_analysis` of src/components/comparison.py, after
the external fetches: a ticker contributes iff its fetched history is
non-empty (`if not hist.empty`); `if prices_data:` falls to the message
branch only when no ticker contributed, otherwise the correlation
matrix of all contributing tickers is rendered. -/
def show_correlation_analysis (fetched : List (String × PriceSeries)) : CorrOutcome :=
  let pricesData := fetched.filter fun t => !t.2.isEmpty
  if pricesData.isEmpty then .noData
  else
    let cols := pricesData.map Prod.snd
    let n := pricesData.length
    .matrixShown (pricesData.map Prod.fst)
      ((List.range n).map fun i => (List.range n).map fun j => corrStat cols i j)

/-!
The specification's correlation algorithm, used to compare the code
against the spec's words (claim C2).
-/

/-- Modelled from the spec: "Step 1: compute daily percentage returns
per ticker" — each ticker's return series over its own dates. -/
def dailyReturnsOwn (s : PriceSeries) : PriceSeries :=
  List.zipWith (fun cur prev => (cur.1, cur.2 / prev.2 - 1)) s.tail s

/-- Modelled from the spec: "Step 2: inner-join on date (drop dates
missing from any series)" — the dates present in every return series. -/
def specCommonDates (rets : List PriceSeries) : List Nat :=
  (unionDates rets).filter fun d => rets.all fun r => (lookupDate r d).isSome

/-- Ticker k's return vector over the inner-joined dates. -/
def specAligned (rets : List PriceSeries) (k : Nat) : List ℚ :=
  (specCommonDates rets).filterMap (lookupDate (rets.getD k []))

/-- Modelled from the spec: "Step 3: Pearson correlation over the
aligned return vectors for every pair" — same rational-pair encoding as
`corrStat`. -/
def specCorrStat (cols : List PriceSeries) (i j : Nat) : ℚ × ℚ :=
  let rets := cols.map dailyReturnsOwn
  let rows := List.zip (specAligned rets i) (specAligned rets j)
  (corrNum rows, corrDenSq rows)

/-!
Drawdown (src/components/portfolio.py, `calculate_max_drawdown`).
-/

/-- `prices.expanding().max()`: the running maximum. -/
def expandingMax : List ℚ → List ℚ
  | [] => []
  | x :: xs => x :: (expandingMax xs).map (max x)

/-- `drawdowns = (prices - rolling_max) / rolling_max`. -/
def drawdown_series (prices : List ℚ) : List ℚ :=
  List.zipWith (fun p m => (p - m) / m) prices (expandingMax prices)

/-- `calculate_max_drawdown`: `drawdowns.min() * 100` (`none` models the
NaN that `.min()` yields on an empty series). -/
def calculate_max_drawdown (prices : List ℚ) : Option ℚ :=
  (drawdown_series prices).min?.map (· * 100)

def seriesA : PriceSeries := [(0, 1), (1, 2), (2, 6), (3, 12), (4, 36)]
def seriesB : PriceSeries := [(0, 1), (1, 2), (2, 4), (3, 8), (4, 24)]
def seriesC : PriceSeries := [(0, 1), (1, 2), (3, 3), (4, 4)]

/-!
Claim-side MACD crossover predicates (for claim C8), written from the
spec's words over the full MACD/Signal series.
-/

/-- A bullish MACD crossover at index t of the full series:
`MACD[t] > Signal[t]` and `MACD[t-1] <= Signal[t-1]`. -/
def bullish_cross_at (close : List ℚ) (t : Nat) : Bool :=
  let m := macd_line close
  let s := signal_line close
  decide (1 ≤ t) && decide (t < m.length) &&
  decide (s.getD t 0 < m.getD t 0) && decide (m.getD (t - 1) 0 ≤ s.getD (t - 1) 0)

/-- The mirror bearish crossover at index t. -/
def bearish_cross_at (close : List ℚ) (t : Nat) : Bool :=
  let m := macd_line close
  let s := signal_line close
  decide (1 ≤ t) && decide (t < m.length) &&
  decide (m.getD t 0 < s.getD t 0) && decide (s.getD (t - 1) 0 ≤ m.getD (t - 1) 0)

/-- Modelled from the claim: a bullish crossover exists at some index
among the last 5 bars. -/
def claim_bullish5 (close : List ℚ) : Bool :=
  (List.range (macd_line close).length).any fun t =>
    decide ((macd_line close).length - 5 ≤ t) && bullish_cross_at close t

/-- A bullish crossover exists among the last 4 bars — what the code's
tail-internal shift actually scans. -/
def bullish4 (close : List ℚ) : Bool :=
  (List.range (macd_line close).length).any fun t =>
    decide ((macd_line close).length - 4 ≤ t) && bullish_cross_at close t

/-- A bearish crossover exists among the last 4 bars. -/
def bearish4 (close : List ℚ) : Bool :=
  (List.range (macd_line close).length).any fun t =>
    decide ((macd_line close).length - 4 ≤ t) && bearish_cross_at close t

/-- Ten bars, flat at 10 then stepping to 20: the only MACD/Signal
crossover is at index 5, the first bar of the 5-bar tail. -/
def stepCloses : List ℚ := [10, 10, 10, 10, 10, 20, 20, 20, 20, 20]

/-!
## General lemmas shared by several claim proofs
-/

theorem zipWith_eq_map_zip {α β γ : Type} (f : α → β → γ) :
    ∀ (as : List α) (bs : List β),
      List.zipWith f as bs = (as.zip bs).map fun p => f p.1 p.2
  | [], _ => rfl
  | _ :: _, [] => rfl
  | a :: as, b :: bs => by
      simp only [List.zipWith_cons_cons, List.zip_cons_cons, List.map_cons]
      exact congrArg _ (zipWith_eq_map_zip f as bs)

/-!
## C9: drawdown series is nonpositive, zero at the first index
-/

theorem expandingMax_bounds (prices : List ℚ) (hpos : ∀ p ∈ prices, 0 < p) :
    ∀ pr ∈ prices.zip (expandingMax prices), pr.1 ≤ pr.2 ∧ 0 < pr.2 := by
  induction prices with
  | nil => simp [expandingMax]
  | cons x xs ih =>
      intro pr hpr
      rw [expandingMax, List.zip_cons_cons] at hpr
      rcases List.mem_cons.mp hpr with h | h
      · subst h
        exact ⟨le_rfl, hpos x (List.mem_cons_self x xs)⟩
      · rw [List.zip_map_right] at h
        obtain ⟨q, hq, rfl⟩ := List.mem_map.mp h
        have hxq := ih (fun p hp => hpos p (List.mem_cons_of_mem x hp)) q hq
        exact ⟨le_trans hxq.1 (le_max_right x q.2), lt_of_lt_of_le hxq.2 (le_max_right x q.2)⟩

/-- C9: for every strictly positive value series, every entry of the
drawdown series `(value - runningMax) / runningMax` is ≤ 0, the first
entry is 0, and therefore the reported max drawdown
(`drawdowns.min() * 100`) is ≤ 0. -/
theorem drawdown_series_nonpos (prices : List ℚ)
    (hpos : ∀ p ∈ prices, 0 < p) (hne : prices ≠ []) :
    (∀ d ∈ drawdown_series prices, d ≤ 0) ∧
    (drawdown_series prices).head? = some 0 ∧
    ∀ m, calculate_max_drawdown prices = some m → m ≤ 0 := by
  have hz := expandingMax_bounds prices hpos
  have hle : ∀ d ∈ drawdown_series prices, d ≤ 0 := by
    intro d hd
    rw [drawdown_series, zipWith_eq_map_zip] at hd
    obtain ⟨pr, hpr, rfl⟩ := List.mem_map.mp hd
    have h := hz pr hpr
    exact div_nonpos_of_nonpos_of_nonneg (by linarith [h.1]) (le_of_lt h.2)
  refine ⟨hle, ?_, ?_⟩
  · obtain ⟨x, xs, rfl⟩ := List.exists_cons_of_ne_nil hne
    have hx : x ≠ 0 := ne_of_gt (hpos x (List.mem_cons_self x xs))
    simp [drawdown_series, expandingMax, List.head?_zipWith, sub_self]
  · intro m hm
    rw [calculate_max_drawdown] at hm
    obtain ⟨m0, hmin, rfl⟩ := Option.map_eq_some'.mp hm
    have hmem := List.min?_mem (fun a b : ℚ => min_choice a b) hmin
    have := hle m0 hmem
    linarith

theorem drawdown_series_nonpos_witness :
    (∀ d ∈ drawdown_series [4, 2, 6], d ≤ 0) ∧
    (drawdown_series [4, 2, 6]).head? = some 0 ∧
    ∀ m, calculate_max_drawdown [4, 2, 6] = some m → m ≤ 0 :=
  drawdown_series_nonpos [4, 2, 6] (by with_unfolding_all decide)
    (by with_unfolding_all decide)

/-!
## C5: pivots only at least `window` bars from both series ends
-/

theorem locSet_forall (P : PivotRow → Prop) (rows : List PivotRow) (r : PivotRow)
    (hrows : ∀ x ∈ rows, P x) (hr : P r) : ∀ x ∈ locSet rows r, P x := by
  unfold locSet
  split
  · intro x hx
    obtain ⟨y, hy, hxy⟩ := List.mem_map.mp hx
    by_cases h : y.idx == r.idx
    · rw [if_pos h] at hxy; exact hxy ▸ hr
    · rw [if_neg h] at hxy; exact hxy ▸ hrows y hy
  · intro x hx
    rcases List.mem_append.mp hx with h | h
    · exact hrows x h
    · rw [List.mem_singleton.mp h]; exact hr

theorem pivot_fold_forall (P : PivotRow → Prop) (f : Nat → PivotRow) (p : Nat → Bool) :
    ∀ (is : List Nat) (rows : List PivotRow),
      (∀ x ∈ rows, P x) → (∀ i ∈ is, P (f i)) →
      ∀ x ∈ is.foldl (fun rows i => if p i then locSet rows (f i) else rows) rows, P x := by
  intro is
  induction is with
  | nil => intro rows h _ x hx; exact h x hx
  | cons i is ih =>
      intro rows hrows his x hx
      rw [List.foldl_cons] at hx
      refine ih _ ?_ (fun j hj => his j (List.mem_cons_of_mem i hj)) x hx
      by_cases hp : p i
      · rw [if_pos hp]
        exact locSet_forall P rows (f i) hrows (his i (List.mem_cons_self i is))
      · rw [if_neg hp]; exact hrows

/-- C5: every row reported by `identify_pivot_points` has its bar index
at least `window` bars from the start and from the end of the series
(`high.length` is the bar count `len(df)`): both scan loops run over
`range(window, len(df) - window)`. -/
theorem pivot_window_bounds (high low : List ℚ) (window : Nat) :
    ∀ r ∈ identify_pivot_points high low window,
      window ≤ r.idx ∧ r.idx + window + 1 ≤ high.length := by
  have hidx : ∀ i ∈ List.range' window (high.length - window - window),
      window ≤ (i : Nat) ∧ i + window + 1 ≤ high.length := by
    intro i hi
    obtain ⟨k, hk, rfl⟩ := List.mem_range'.mp hi
    omega
  have h1 : ∀ x ∈ (List.range' window (high.length - window - window)).foldl
      (fun rows i => if isPivotHigh high window i then
        locSet rows ⟨i, high.getD i 0, .high⟩ else rows) [],
      window ≤ x.idx ∧ x.idx + window + 1 ≤ high.length :=
    pivot_fold_forall (fun x => window ≤ x.idx ∧ x.idx + window + 1 ≤ high.length)
      (fun i => ⟨i, high.getD i 0, .high⟩) (isPivotHigh high window) _ []
      (by simp) (fun i hi => hidx i hi)
  intro r hr
  unfold identify_pivot_points at hr
  exact pivot_fold_forall (fun x => window ≤ x.idx ∧ x.idx + window + 1 ≤ high.length)
    (fun i => ⟨i, low.getD i 0, .low⟩) (isPivotLow low window) _ _
    h1 (fun i hi => hidx i hi) r hr

theorem pivot_window_bounds_witness :
    1 ≤ (⟨1, 5, .high⟩ : PivotRow).idx ∧
    (⟨1, 5, .high⟩ : PivotRow).idx + 1 + 1 ≤ [(1 : ℚ), 5, 1].length :=
  pivot_window_bounds [1, 5, 1] [2, 2, 2] 1 ⟨1, 5, .high⟩ (by with_unfolding_all decide)

/-!
## C7: crossover detection is deterministic, and golden/death signals
are mutually exclusive at every date — in particular for the run with
the short and long periods swapped
-/

/-- C7: re-running `show_moving_averages`'s crossover detection on the
same close series and periods yields the same signal series, and for
any two moving-average series (hence also for the pair obtained by
swapping the short and long periods) no date carries both a
Golden-Cross and a Death-Cross flag, because the defining inequalities
are strict in opposite directions. -/
theorem golden_death_cross_props (close : List ℚ) (p q : Nat)
    (a b : List (Option ℚ)) (i : Nat) :
    detect_crosses close p q = detect_crosses close p q ∧
    ((golden_cross a b).getD i false = true →
      (death_cross a b).getD i false = false) := by
  refine ⟨rfl, ?_⟩
  intro hg
  rw [golden_cross, List.getD_eq_getElem?_getD] at hg
  rw [death_cross, List.getD_eq_getElem?_getD]
  simp only [List.getElem?_zipWith] at hg ⊢
  rcases ha : a[i]? with _ | x <;> rcases hb : b[i]? with _ | y <;>
    rcases hsa : (shiftO a)[i]? with _ | u <;> rcases hsb : (shiftO b)[i]? with _ | v <;>
    simp only [ha, hb, hsa, hsb, Option.getD_some, Option.getD_none,
      Bool.and_eq_true] at hg ⊢ <;>
    try exact hg.elim
  obtain ⟨hg1, hg2⟩ := hg
  cases x with
  | none => simp [optGT] at hg1
  | some x₁ =>
      cases y with
      | none => simp [optGT] at hg1
      | some y₁ =>
          simp only [optGT, decide_eq_true_eq] at hg1
          have hnlt : ¬x₁ < y₁ := lt_asymm hg1
          simp [optLT, decide_eq_false hnlt]

theorem golden_death_cross_witness :
    (death_cross [some 1, some 3] [some 2, some 2]).getD 1 false = false :=
  (golden_death_cross_props [] 50 200 [some 1, some 3] [some 2, some 2] 1).2
    (by with_unfolding_all decide)

/-!
## C3: when does the correlation view fall back to the no-data message
-/

/-- C3 counterexample: with exactly one ticker holding valid data — fewer
than the 2 the claim requires — the code does not return the explicit
insufficient-data result; `if prices_data:` only catches the empty case,
so a silent 1×1 matrix is rendered. -/
theorem corr_single_ticker_counterexample :
    show_correlation_analysis [("A", [(0, 1), (1, 2)])]
        = .matrixShown ["A"] [[(0, 0)]] ∧
    show_correlation_analysis [("A", [(0, 1), (1, 2)])] ≠ .noData := by
  constructor
  · with_unfolding_all decide
  · intro h
    rw [show (show_correlation_analysis [("A", [(0, 1), (1, 2)])]
        = .matrixShown ["A"] [[(0, 0)]]) from by with_unfolding_all decide] at h
    exact CorrOutcome.noConfusion h

/-- C3 amended: the explicit no-data message appears exactly when zero
tickers have valid (non-empty) data; whenever at least one ticker has
data — including exactly one — a matrix over precisely those tickers is
rendered, with one stats row per contributing ticker. -/
theorem corr_outcome_characterisation (fetched : List (String × PriceSeries)) :
    (show_correlation_analysis fetched = .noData ↔
      fetched.filter (fun t => !t.2.isEmpty) = []) ∧
    ∀ ts stats, show_correlation_analysis fetched = .matrixShown ts stats →
      ts = (fetched.filter fun t => !t.2.isEmpty).map Prod.fst ∧
      stats.length = ts.length := by
  unfold show_correlation_analysis
  by_cases h : (fetched.filter fun t => !t.2.isEmpty).isEmpty
  · rw [if_pos h]
    refine ⟨⟨fun _ => List.isEmpty_iff.mp h, fun _ => rfl⟩, ?_⟩
    intro ts stats hts
    exact CorrOutcome.noConfusion hts
  · rw [if_neg h]
    constructor
    · constructor
      · intro hcontra; exact CorrOutcome.noConfusion hcontra
      · intro hnil; exact absurd (List.isEmpty_iff.mpr hnil) h
    · intro ts stats hts
      injection hts with h1 h2
      subst h1; subst h2
      simp

theorem corr_outcome_witness :
    ["A"] = ([("A", [((0 : Nat), (1 : ℚ))])].filter fun t => !t.2.isEmpty).map Prod.fst ∧
    [[((0 : ℚ), (0 : ℚ))]].length = ["A"].length :=
  (corr_outcome_characterisation [("A", [(0, 1)])]).2 ["A"] [[(0, 0)]]
    (by with_unfolding_all decide)

/-!
## C2: the code's pairwise-complete correlation versus the spec's
global inner-join alignment
-/

/-- C2 counterexample: tickers A and B have bars on dates 0–4, ticker C
is missing date 2.  The spec's algorithm (returns per ticker, inner
join on dates 1,3,4 shared by every return series, Pearson per pair)
gives the A–B pair the stat (2, 4): numerator 2 > 0 with 2² = 4, i.e.
correlation exactly 1.  The code's `returns.corr()` keeps all four A–B
return rows (dates missing from C are not dropped for the A–B pair) and
yields (2, 12), a squared correlation of 1/3.  The two coefficients
differ since 2²·4 ≠ 2²·12 fails the cross-multiplication test. -/
theorem corr_innerjoin_counterexample :
    specCorrStat [seriesA, seriesB, seriesC] 0 1 = (2, 4) ∧
    corrStat [seriesA, seriesB, seriesC] 0 1 = (2, 12) ∧
    (0 : ℚ) < 2 ∧ (2 : ℚ) ^ 2 = 4 ∧ (2 : ℚ) ^ 2 * 4 ≠ (2 : ℚ) ^ 2 * 12 := by
  refine ⟨by with_unfolding_all decide, by with_unfolding_all decide, by norm_num⟩

/-- C2 amended: the aggregator computes each ticker's daily percentage
returns over the outer-joined (union-date, forward-filled) frame and
computes each pairwise Pearson correlation over the rows where both
tickers of the pair have return values; dates missing from a third
ticker are not dropped for the pair — the pair's entry is unchanged
under any change of the third ticker's prices on its dates. -/
theorem corr_pair_ignores_other_columns (A B C C₂ : PriceSeries)
    (hdates : C.map Prod.fst = C₂.map Prod.fst) :
    corrStat [A, B, C] 0 1 = corrStat [A, B, C₂] 0 1 := by
  unfold corrStat returnsFrame
  have hu : unionDates [A, B, C] = unionDates [A, B, C₂] := by
    unfold unionDates
    simp [hdates]
  rw [hu]
  simp

theorem corr_pair_ignores_other_columns_witness :
    corrStat [seriesA, seriesB, seriesC] 0 1
      = corrStat [seriesA, seriesB, [(0, 5), (1, 7), (3, 9), (4, 11)]] 0 1 :=
  corr_pair_ignores_other_columns seriesA seriesB seriesC
    [(0, 5), (1, 7), (3, 9), (4, 11)] (by with_unfolding_all decide)

/-!
## C1 and C4: indicator values on constant and degenerate series
-/

theorem foldr_add_replicate_zero :
    ∀ k, (List.replicate k (EVal.fin 0)).foldr EVal.add (EVal.fin 0) = EVal.fin 0
  | 0 => rfl
  | k + 1 => by
      rw [List.replicate_succ, List.foldr_cons, foldr_add_replicate_zero k]
      show EVal.fin (0 + 0) = EVal.fin 0
      norm_num

theorem rollingMeanE_getElem (xs : List EVal) (p i : Nat) (h : i < xs.length) :
    (rollingMeanE xs p)[i]? = some (if i + 1 < p then EVal.nan
      else
        if ((xs.take (i + 1)).drop (i + 1 - p)).any EVal.isNan then EVal.nan
        else EVal.div (((xs.take (i + 1)).drop (i + 1 - p)).foldr EVal.add (EVal.fin 0))
          (EVal.fin p)) := by
  unfold rollingMeanE
  rw [List.getElem?_map, List.getElem?_range h]
  rfl

theorem rollingMeanE_replicate_zero (N i : Nat) (h13 : 13 ≤ i) (hin : i < N) :
    (rollingMeanE (List.replicate N (EVal.fin 0)) 14)[i]? = some (EVal.fin 0) := by
  rw [rollingMeanE_getElem _ _ _ (by simpa using hin)]
  rw [if_neg (by omega)]
  rw [List.take_replicate, List.drop_replicate]
  have hw : min (i + 1) N - (i + 1 - 14) = 14 := by omega
  rw [hw]
  have hany : (List.replicate 14 (EVal.fin 0)).any EVal.isNan = false := by
    simp [List.any_eq_true, EVal.isNan]
  rw [hany]
  simp only [Bool.false_eq_true, if_false, foldr_add_replicate_zero]
  show some (EVal.fin (0 / 14)) = some (EVal.fin 0)
  norm_num

theorem rollingMeanE_nan_cons (m i : Nat) (him : i < m + 1) :
    (rollingMeanE (EVal.nan :: List.replicate m (EVal.fin 0)) 14)[i]? =
      some (if i ≤ 13 then EVal.nan else EVal.fin 0) := by
  rw [rollingMeanE_getElem _ _ _ (by simpa using him)]
  by_cases h14 : i + 1 < 14
  · rw [if_pos h14, if_pos (by omega)]
  · rw [if_neg h14]
    by_cases h13 : i ≤ 13
    · have hi : i = 13 := by omega
      subst hi
      have hany : (((EVal.nan :: List.replicate m (EVal.fin 0)).take (13 + 1)).drop
          (13 + 1 - 14)).any EVal.isNan = true := by
        rw [List.take_succ_cons]
        simp [EVal.isNan]
      rw [hany]
      simp
    · rw [if_neg h13]
      have h14' : 14 ≤ i := by omega
      have him' : i ≤ m := by omega
      rw [List.take_succ_cons, List.take_replicate, min_eq_left him']
      have hdrop : (EVal.nan :: List.replicate i (EVal.fin 0)).drop (i + 1 - 14)
          = List.replicate 14 (EVal.fin 0) := by
        have h1 : i + 1 - 14 = (i - 14) + 1 := by omega
        rw [h1, List.drop_succ_cons, List.drop_replicate]
        congr 1
        omega
      rw [hdrop]
      have hany : (List.replicate 14 (EVal.fin 0)).any EVal.isNan = false := by
        simp [List.any_eq_true, EVal.isNan]
      rw [hany]
      simp only [Bool.false_eq_true, if_false, foldr_add_replicate_zero]
      show some (EVal.fin (0 / 14)) = some (EVal.fin 0)
      norm_num

theorem diffE_replicate (m : Nat) (c : ℚ) :
    diffE (List.replicate (m + 1) (EVal.fin c)) = EVal.nan :: List.replicate m (EVal.fin 0) := by
  rw [List.replicate_succ, diffE]
  congr 1
  rw [← List.replicate_succ, List.zipWith_replicate]
  have hmin : min m (m + 1) = m := by omega
  rw [hmin]
  congr 1
  show EVal.fin (c + -c) = EVal.fin 0
  norm_num

/-- C1 counterexample: on a 16-bar constant-price series the rolling
average gain *and* loss are both 0, so `rs = 0/0` is NaN and the RSI
entry past warm-up is NaN — it is not 100, and the NaN does reach the
caller (`calculate_rsi` just returns the series). -/
theorem rsi_constant_counterexample :
    (calculate_rsi (List.replicate 16 (EVal.fin 10)) 14)[15]? = some EVal.nan ∧
    (calculate_rsi (List.replicate 16 (EVal.fin 10)) 14)[15]? ≠ some (EVal.fin 100) := by
  constructor
  · with_unfolding_all decide
  · with_unfolding_all decide

/-- C1 amended: on every constant-price close series every RSI entry is
NaN (both rolling averages are 0 and `0/0` is NaN), and that NaN
reaches the caller; the documented `inf → 100` fallback arises only
when the average loss is 0 while the average gain is positive, in which
case `100 - 100/(1 + rs)` is exactly 100. -/
theorem rsi_constant_series_nan (n : Nat) (c : ℚ) (i : Nat) (hin : i < n) :
    (calculate_rsi (List.replicate n (EVal.fin c)) 14)[i]? = some EVal.nan ∧
    ∀ g : ℚ, 0 < g → rsiOfRs (EVal.div (EVal.fin g) (EVal.fin 0)) = EVal.fin 100 := by
  constructor
  · obtain ⟨m, rfl⟩ : ∃ m, n = m + 1 := ⟨n - 1, by omega⟩
    unfold calculate_rsi
    rw [diffE_replicate]
    dsimp only
    have hgain : (EVal.nan :: List.replicate m (EVal.fin 0)).map EVal.clipLower0
        = EVal.nan :: List.replicate m (EVal.fin 0) := by
      rw [List.map_cons, List.map_replicate]
      show EVal.nan :: List.replicate m (EVal.fin (max 0 0)) = _
      norm_num
    have hloss : (EVal.nan :: List.replicate m (EVal.fin 0)).map
        (fun d => (EVal.clipUpper0 d).neg) = EVal.nan :: List.replicate m (EVal.fin 0) := by
      rw [List.map_cons, List.map_replicate]
      show EVal.nan :: List.replicate m (EVal.fin (-min 0 0)) = _
      norm_num
    rw [hgain, hloss]
    rw [List.getElem?_map, List.getElem?_zipWith]
    rw [rollingMeanE_nan_cons m i hin]
    by_cases h13 : i ≤ 13
    · rw [if_pos h13]; rfl
    · rw [if_neg h13]
      show some (rsiOfRs (EVal.div (EVal.fin 0) (EVal.fin 0))) = some EVal.nan
      rw [show EVal.div (EVal.fin 0) (EVal.fin 0) = EVal.nan from by
        show (if (0 : ℚ) = 0 then (if (0 : ℚ) = 0 then EVal.nan else if (0 : ℚ) < 0
          then EVal.pinf else EVal.ninf) else EVal.fin (0 / 0)) = EVal.nan
        norm_num]
      rfl
  · intro g hg
    have hdiv : EVal.div (EVal.fin g) (EVal.fin 0) = EVal.pinf := by
      show (if (0 : ℚ) = 0 then (if g = 0 then EVal.nan else if 0 < g
        then EVal.pinf else EVal.ninf) else EVal.fin (g / 0)) = EVal.pinf
      rw [if_pos rfl, if_neg (ne_of_gt hg), if_pos hg]
    rw [hdiv]
    show EVal.fin (100 + -(0 : ℚ)) = EVal.fin 100
    norm_num

theorem rsi_constant_series_nan_witness :
    (calculate_rsi (List.replicate 20 (EVal.fin 7)) 14)[16]? = some EVal.nan ∧
    ∀ g : ℚ, 0 < g → rsiOfRs (EVal.div (EVal.fin g) (EVal.fin 0)) = EVal.fin 100 :=
  rsi_constant_series_nan 20 7 16 (by omega)

/-- C4 counterexample: a 16-bar series with open = high = low = close at
every bar whose close alternates between 1 and 2.  The true range at
every bar past the first is `|close[t] - close[t-1]| = 1`, so ATR(14) at
the first post-warm-up index is 13/14, not 0. -/
theorem atr_equal_ohlc_counterexample :
    (calculate_atr altBars altBars altBars 14)[13]? = some (EVal.fin (13 / 14)) ∧
    (calculate_atr altBars altBars altBars 14)[13]? ≠ some (EVal.fin 0) := by
  constructor
  · with_unfolding_all decide
  · with_unfolding_all decide

/-- C4 amended: when open = high = low = close at every bar *and* the
close is the same at every bar, every true range is 0 and ATR(14) is 0
at every index past the warm-up window (the first 13 indices). -/
theorem atr_constant_bars_zero (n : Nat) (c : ℚ) (i : Nat) (h13 : 13 ≤ i) (hin : i < n) :
    (calculate_atr (List.replicate n (EVal.fin c)) (List.replicate n (EVal.fin c))
        (List.replicate n (EVal.fin c)) 14)[i]? = some (EVal.fin 0) := by
  obtain ⟨m, rfl⟩ : ∃ m, n = m + 1 := ⟨n - 1, by omega⟩
  unfold calculate_atr
  dsimp only
  have hshift : shiftE (List.replicate (m + 1) (EVal.fin c))
      = EVal.nan :: List.replicate m (EVal.fin c) := by
    rw [List.replicate_succ, shiftE, ← List.replicate_succ, List.replicate_succ',
      List.dropLast_concat]
  rw [hshift]
  have htr1 : List.zipWith EVal.sub (List.replicate (m + 1) (EVal.fin c))
      (List.replicate (m + 1) (EVal.fin c)) = List.replicate (m + 1) (EVal.fin 0) := by
    rw [List.zipWith_replicate, min_self]
    congr 1
    show EVal.fin (c + -c) = EVal.fin 0
    norm_num
  have htr23 : (List.zipWith EVal.sub (List.replicate (m + 1) (EVal.fin c))
      (EVal.nan :: List.replicate m (EVal.fin c))).map EVal.abs
      = EVal.nan :: List.replicate m (EVal.fin 0) := by
    rw [List.replicate_succ, List.zipWith_cons_cons, List.zipWith_replicate, min_self,
      List.map_cons, List.map_replicate]
    show EVal.nan :: List.replicate m (EVal.fin |c + -c|) = _
    norm_num
  rw [htr1, htr23]
  have hmax : List.zipWith EVal.maxSkip (List.replicate (m + 1) (EVal.fin 0))
      (EVal.nan :: List.replicate m (EVal.fin 0)) = List.replicate (m + 1) (EVal.fin 0) := by
    rw [List.replicate_succ, List.zipWith_cons_cons, List.zipWith_replicate, min_self]
    show EVal.fin 0 :: List.replicate m (EVal.fin (max 0 0)) = _
    have hmax00 : EVal.fin (max (0 : ℚ) 0) = EVal.fin 0 := by norm_num
    rw [hmax00, ← List.replicate_succ]
  rw [hmax, hmax]
  exact rollingMeanE_replicate_zero (m + 1) i h13 hin

theorem atr_constant_bars_zero_witness :
    (calculate_atr (List.replicate 16 (EVal.fin 5)) (List.replicate 16 (EVal.fin 5))
        (List.replicate 16 (EVal.fin 5)) 14)[14]? = some (EVal.fin 0) :=
  atr_constant_bars_zero 16 5 14 (by omega) (by omega)

/-!
## C6: the greedy pivot-value clustering pass
-/

/-- C6 counterexample: the sorted pivot values 100 and 101.005 differ by
1.005% of the last member 100, so under the claim's "within 1% of the
running cluster's last member" they form no cluster (under `<` or `≤`);
the code divides by the *incoming* value (1.005/101.005 ≈ 0.995% < 1%),
clusters them, and reports their mean 100.5025 as a level. -/
theorem find_clusters_denominator_counterexample :
    find_clusters [100, 20201 / 200] = [40201 / 400] ∧
    find_clusters_claim [100, 20201 / 200] = [] ∧
    ¬(|(20201 / 200 : ℚ) - 100| / 100 ≤ 1 / 100) := by
  refine ⟨?_, ?_, by norm_num [abs]⟩
  · norm_num [find_clusters, sortQ, insertSorted, find_clusters_go, is_close, abs,
      emitCluster, clusterMean]
  · norm_num [find_clusters_claim, sortQ, insertSorted, find_clusters_claim_go,
      is_close_claim, abs, emitCluster, clusterMean]

theorem emitAll_cons (c : List ℚ) (gs : List (List ℚ)) :
    emitAll (c :: gs) = emitCluster c ++ emitAll gs := by
  by_cases h : 2 ≤ c.length <;> simp [emitAll, emitCluster, h]

theorem emitAll_singleton (c : List ℚ) : emitAll [c] = emitCluster c := by
  rw [emitAll_cons]
  simp [emitAll]

theorem emitCluster_reverse (c : List ℚ) : emitCluster c.reverse = emitCluster c := by
  simp [emitCluster, clusterMean, List.sum_reverse]

theorem groupRuns_ne_nil : ∀ (l : List ℚ), ∀ g ∈ groupRuns l, g ≠ [] := by
  intro l
  induction l with
  | nil => intro g hg; simp [groupRuns] at hg
  | cons v rest ih =>
      intro g hg
      simp only [groupRuns] at hg
      cases hgr : groupRuns rest with
      | nil => rw [hgr] at hg; simp at hg; subst hg; simp
      | cons g0 gs =>
          rw [hgr] at hg
          have hg0 : g0 ≠ [] := ih g0 (hgr ▸ List.mem_cons_self g0 gs)
          obtain ⟨w, g2, rfl⟩ := List.exists_cons_of_ne_nil hg0
          dsimp only at hg
          by_cases hc : is_close w v = true
          · rw [if_pos hc] at hg
            rcases List.mem_cons.mp hg with h | h
            · subst h; simp
            · exact ih g (hgr ▸ List.mem_cons_of_mem _ h)
          · rw [if_neg hc] at hg
            rcases List.mem_cons.mp hg with h | h
            · subst h; simp
            · exact ih g (hgr ▸ h)

theorem find_clusters_go_acc :
    ∀ (rest cur acc : List ℚ),
      find_clusters_go cur acc rest = acc ++ find_clusters_go cur [] rest := by
  intro rest
  induction rest with
  | nil => intro cur acc; simp [find_clusters_go]
  | cons v rest ih =>
      intro cur acc
      cases hb : is_close v (cur.headD 0) with
      | true =>
          simp only [find_clusters_go, hb, eq_self_iff_true, if_true]
          exact ih (v :: cur) acc
      | false =>
          simp only [find_clusters_go, hb, Bool.false_eq_true, if_false]
          rw [ih [v] (acc ++ emitCluster cur), ih [v] ([] ++ emitCluster cur)]
          simp [List.append_assoc]

theorem emitCluster_reverse_append (x : ℚ) (xs : List ℚ) :
    emitCluster (xs.reverse ++ [x]) = emitCluster (x :: xs) := by
  rw [← List.reverse_cons]
  exact emitCluster_reverse (x :: xs)

theorem mergeHead_chain (x v : ℚ) (xs : List ℚ) (l : List ℚ) (hb : is_close v x = true) :
    mergeHead v (x :: xs) (groupRuns l) = mergeHead x xs (groupRuns (v :: l)) := by
  cases hgr : groupRuns l with
  | nil =>
      simp [groupRuns, hgr, mergeHead, hb, List.reverse_cons]
  | cons g gs =>
      have hg : g ≠ [] := groupRuns_ne_nil l g (hgr ▸ List.mem_cons_self g gs)
      obtain ⟨w, g2, rfl⟩ := List.exists_cons_of_ne_nil hg
      cases hwv : is_close w v with
      | true => simp [groupRuns, hgr, mergeHead, hwv, hb, List.reverse_cons, List.append_assoc]
      | false => simp [groupRuns, hgr, mergeHead, hwv, hb, List.reverse_cons]

theorem mergeHead_break (x v : ℚ) (xs : List ℚ) (l : List ℚ) (hb : is_close v x = false) :
    emitAll (mergeHead x xs (groupRuns (v :: l)))
      = emitCluster (x :: xs) ++ emitAll (mergeHead v [] (groupRuns l)) := by
  cases hgr : groupRuns l with
  | nil =>
      simp [groupRuns, hgr, mergeHead, hb, emitAll_cons, emitCluster_reverse,
        emitCluster_reverse_append]
  | cons g gs =>
      have hg : g ≠ [] := groupRuns_ne_nil l g (hgr ▸ List.mem_cons_self g gs)
      obtain ⟨w, g2, rfl⟩ := List.exists_cons_of_ne_nil hg
      cases hwv : is_close w v with
      | true =>
          simp [groupRuns, hgr, mergeHead, hb, hwv, emitAll_cons, emitCluster_reverse,
            emitCluster_reverse_append]
      | false =>
          simp [groupRuns, hgr, mergeHead, hb, hwv, emitAll_cons, emitCluster_reverse,
            emitCluster_reverse_append]

theorem find_clusters_go_eq (rest : List ℚ) : ∀ (x : ℚ) (xs : List ℚ),
    find_clusters_go (x :: xs) [] rest = emitAll (mergeHead x xs (groupRuns rest)) := by
  induction rest with
  | nil =>
      intro x xs
      show [] ++ emitCluster (x :: xs) = emitAll (mergeHead x xs (groupRuns []))
      simp [groupRuns, mergeHead, emitAll_singleton, emitCluster_reverse,
        emitCluster_reverse_append]
  | cons v rest ih =>
      intro x xs
      cases hb : is_close v x with
      | true =>
          rw [show find_clusters_go (x :: xs) [] (v :: rest)
              = find_clusters_go (v :: x :: xs) [] rest from by
            simp [find_clusters_go, hb]]
          rw [ih v (x :: xs), mergeHead_chain x v xs rest hb]
      | false =>
          rw [show find_clusters_go (x :: xs) [] (v :: rest)
              = find_clusters_go [v] ([] ++ emitCluster (x :: xs)) rest from by
            simp [find_clusters_go, hb]]
          rw [find_clusters_go_acc rest [v] ([] ++ emitCluster (x :: xs))]
          rw [ih v [], mergeHead_break x v xs rest hb]
          simp

/-- C6 amended: `find_clusters` sorts the pivot values ascending and
greedily groups consecutive values, where the incoming value `v` joins
the running cluster exactly when `|v - last| / v < 1%` — the 1% is
measured against the incoming value, not the cluster's last member — a
cluster is reported exactly when it holds at least 2 pivots, and the
reported price is the cluster's arithmetic mean: the loop equals the
run-splitting description `clusters_spec`. -/
theorem find_clusters_characterisation (values : List ℚ) :
    find_clusters values = clusters_spec values := by
  unfold find_clusters clusters_spec
  cases hs : sortQ values with
  | nil => simp [groupRuns, emitAll]
  | cons v rest =>
      dsimp only
      rw [find_clusters_go_eq rest v []]
      have hmh : mergeHead v [] (groupRuns rest) = groupRuns (v :: rest) := by
        cases hgr : groupRuns rest with
        | nil => simp [groupRuns, hgr, mergeHead]
        | cons g gs =>
            have hg : g ≠ [] := groupRuns_ne_nil rest g (hgr ▸ List.mem_cons_self g gs)
            obtain ⟨w, g2, rfl⟩ := List.exists_cons_of_ne_nil hg
            cases hwv : is_close w v with
            | true => simp [groupRuns, hgr, mergeHead, hwv]
            | false => simp [groupRuns, hgr, mergeHead, hwv]
      rw [hmh]

/-!
## C10: a bar qualifying as both pivot high and pivot low keeps only
its low row, because the low scan's `.loc` write overwrites the date
-/

theorem locSet_fresh (rows : List PivotRow) (r : PivotRow)
    (h : ∀ x ∈ rows, x.idx ≠ r.idx) : locSet rows r = rows ++ [r] := by
  have hany : rows.any (fun x => x.idx == r.idx) = false := by
    rw [List.any_eq_false]
    intro x hx
    simp [h x hx]
  rw [locSet, hany]
  simp

theorem filter_map_replace (rows : List PivotRow) (r : PivotRow) (i : Nat) (hne : r.idx ≠ i) :
    ((rows.map fun x => if x.idx == r.idx then r else x).filter fun x => x.idx == i)
      = rows.filter fun x => x.idx == i := by
  induction rows with
  | nil => rfl
  | cons y ys ih =>
      simp only [List.map_cons, List.filter_cons]
      by_cases hy : (y.idx == r.idx) = true
      · rw [if_pos hy]
        have h1 : (r.idx == i) = false := by simp [hne]
        have h2 : (y.idx == i) = false := by
          have : y.idx = r.idx := by simpa using hy
          simp [this, hne]
        rw [h1, h2]
        simp only [Bool.false_eq_true, if_false]
        exact ih
      · rw [if_neg hy]
        cases hyi : y.idx == i with
        | true =>
            simp only [hyi, eq_self_iff_true, if_true]
            exact congrArg (List.cons y) ih
        | false =>
            simp only [hyi, Bool.false_eq_true, if_false]
            exact ih

theorem filter_locSet_ne (rows : List PivotRow) (r : PivotRow) (i : Nat) (hne : r.idx ≠ i) :
    ((locSet rows r).filter fun x => x.idx == i) = rows.filter fun x => x.idx == i := by
  rw [locSet]
  by_cases hany : rows.any (fun x => x.idx == r.idx) = true
  · rw [if_pos hany]
    exact filter_map_replace rows r i hne
  · rw [if_neg hany, List.filter_append]
    have : [r].filter (fun x => x.idx == i) = [] := by simp [hne]
    rw [this, List.append_nil]

theorem filter_map_replace_self (rows : List PivotRow) (r : PivotRow) :
    ((rows.map fun x => if x.idx == r.idx then r else x).filter fun x => x.idx == r.idx)
      = List.replicate ((rows.filter fun x => x.idx == r.idx).length) r := by
  induction rows with
  | nil => rfl
  | cons y ys ih =>
      simp only [List.map_cons, List.filter_cons]
      cases hy : y.idx == r.idx with
      | true =>
          simp only [hy, eq_self_iff_true, if_true, beq_self_eq_true, List.length_cons,
            List.replicate_succ]
          exact congrArg (List.cons r) ih
      | false =>
          simp only [hy, Bool.false_eq_true, if_false]
          exact ih

theorem filter_locSet_self (rows : List PivotRow) (r : PivotRow)
    (hcount : ((rows.filter fun x => x.idx == r.idx).length) ≤ 1) :
    ((locSet rows r).filter fun x => x.idx == r.idx) = [r] := by
  rw [locSet]
  by_cases hany : rows.any (fun x => x.idx == r.idx) = true
  · rw [if_pos hany, filter_map_replace_self rows r]
    obtain ⟨y, hy, hyr⟩ := List.any_eq_true.mp hany
    have hpos : 1 ≤ (rows.filter fun x => x.idx == r.idx).length := by
      have : y ∈ rows.filter fun x => x.idx == r.idx := List.mem_filter.mpr ⟨hy, hyr⟩
      exact List.length_pos.mpr (List.ne_nil_of_mem this)
    have h1 : (rows.filter fun x => x.idx == r.idx).length = 1 := le_antisymm hcount hpos
    rw [h1]
    rfl
  · rw [if_neg hany, List.filter_append]
    have hanyF : rows.any (fun x => x.idx == r.idx) = false := by
      simpa using hany
    have h0 : (rows.filter fun x => x.idx == r.idx) = [] := by
      rw [List.filter_eq_nil_iff]
      exact List.any_eq_false.mp hanyF
    rw [h0]
    simp

theorem filter_locSet_self_at (rows : List PivotRow) (r : PivotRow) (i : Nat) (hri : r.idx = i)
    (hcount : ((rows.filter fun x => x.idx == i).length) ≤ 1) :
    ((locSet rows r).filter fun x => x.idx == i) = [r] := by
  subst hri
  exact filter_locSet_self rows r hcount

theorem filter_of_nodup_map (f : Nat → PivotRow) (hf : ∀ j, (f j).idx = j) (i : Nat) :
    ∀ (is : List Nat), is.Nodup →
      (((is.map f).filter fun x => x.idx == i).length) ≤ 1 := by
  intro is
  induction is with
  | nil => intro _; simp
  | cons j js ih =>
      intro hnd
      obtain ⟨hj, hjs⟩ := List.nodup_cons.mp hnd
      simp only [List.map_cons, List.filter_cons]
      cases hji : (f j).idx == i with
      | true =>
          have hj_eq : j = i := by
            have := (beq_iff_eq).mp hji
            rwa [hf j] at this
          have hempty : ((js.map f).filter fun x => x.idx == i) = [] := by
            rw [List.filter_eq_nil_iff]
            intro x hx
            obtain ⟨k, hk, rfl⟩ := List.mem_map.mp hx
            rw [hf k]
            simp only [beq_iff_eq]
            intro hki
            exact hj (hj_eq ▸ hki ▸ hk)
          simp only [eq_self_iff_true, if_true, hempty]
          simp
      | false =>
          simp only [Bool.false_eq_true, if_false]
          exact ih hjs

theorem fold_locSet_append (p : Nat → Bool) (f : Nat → PivotRow) (hf : ∀ j, (f j).idx = j) :
    ∀ (is : List Nat) (rows : List PivotRow),
      is.Nodup → (∀ x ∈ rows, x.idx ∉ is) →
      is.foldl (fun rows j => if p j then locSet rows (f j) else rows) rows
        = rows ++ (is.filter p).map f := by
  intro is
  induction is with
  | nil => intro rows _ _; simp
  | cons j js ih =>
      intro rows hnd hdisj
      obtain ⟨hj, hjs⟩ := List.nodup_cons.mp hnd
      rw [List.foldl_cons]
      cases hp : p j with
      | true =>
          have hfresh : ∀ x ∈ rows, x.idx ≠ (f j).idx := by
            intro x hx
            rw [hf j]
            intro hcontra
            exact hdisj x hx (hcontra ▸ List.mem_cons_self j js)
          rw [if_pos rfl, locSet_fresh rows (f j) hfresh]
          rw [ih (rows ++ [f j]) hjs ?_]
          · simp only [List.filter_cons, hp, if_true, eq_self_iff_true, List.map_cons]
            simp [List.append_assoc]
          · intro x hx
            rcases List.mem_append.mp hx with h | h
            · exact fun hmem => hdisj x h (List.mem_cons_of_mem j hmem)
            · rw [List.mem_singleton.mp h, hf j]
              exact hj
      | false =>
          rw [if_neg (by simp)]
          rw [ih rows hjs (fun x hx hmem => hdisj x hx (List.mem_cons_of_mem j hmem))]
          simp [List.filter_cons, hp]

theorem filter_fold_not_mem (p : Nat → Bool) (f : Nat → PivotRow) (hf : ∀ j, (f j).idx = j)
    (i : Nat) :
    ∀ (is : List Nat) (rows : List PivotRow), i ∉ is →
      ((is.foldl (fun rows j => if p j then locSet rows (f j) else rows) rows).filter
          fun x => x.idx == i)
        = rows.filter fun x => x.idx == i := by
  intro is
  induction is with
  | nil => intro rows _; rfl
  | cons j js ih =>
      intro rows hmem
      rw [List.foldl_cons]
      have hji : j ≠ i := fun h => hmem (h ▸ List.mem_cons_self j js)
      have htail : i ∉ js := fun h => hmem (List.mem_cons_of_mem j h)
      cases hp : p j with
      | true =>
          rw [if_pos rfl, ih _ htail, filter_locSet_ne _ _ _ (by rw [hf j]; exact hji)]
      | false =>
          rw [if_neg (by simp), ih _ htail]

/-- C10: when a bar qualifies simultaneously as a pivot high (on the
high series) and as a pivot low (on the low series), the result of
`identify_pivot_points` holds exactly one row for that bar and its type
is Low: the later low-scan writes through `.loc` to the same date label
and overwrites the high row. -/
theorem pivot_double_qualify_low_wins (high low : List ℚ) (window i : Nat)
    (hh : isPivotHigh high window i = true) (hl : isPivotLow low window i = true)
    (hw : window ≤ i) (hi : i + window < high.length) :
    ((identify_pivot_points high low window).filter fun r => r.idx == i)
      = [⟨i, low.getD i 0, PivotType.low⟩] := by
  have hnd : (List.range' window (high.length - window - window)).Nodup :=
    List.nodup_range' _ _
  have hmem : i ∈ List.range' window (high.length - window - window) := by
    rw [List.mem_range']
    exact ⟨i - window, by omega, by omega⟩
  obtain ⟨s, t, hst⟩ := List.append_of_mem hmem
  have hndst : (s ++ i :: t).Nodup := hst ▸ hnd
  have hmem_s : i ∉ s := by
    rcases List.nodup_append.mp hndst with ⟨_, _, hdisj⟩
    exact fun h => hdisj h (List.mem_cons_self i t)
  have hmem_t : i ∉ t := by
    rcases List.nodup_append.mp hndst with ⟨_, hnd2, _⟩
    exact (List.nodup_cons.mp hnd2).1
  unfold identify_pivot_points
  dsimp only
  rw [hst]
  rw [fold_locSet_append (isPivotHigh high window)
      (fun j => ⟨j, high.getD j 0, PivotType.high⟩) (fun j => rfl) _ [] hndst (by simp),
    List.nil_append]
  rw [List.foldl_append, List.foldl_cons]
  rw [filter_fold_not_mem (isPivotLow low window)
      (fun j => ⟨j, low.getD j 0, PivotType.low⟩) (fun j => rfl) i t _ hmem_t]
  rw [if_pos hl]
  refine filter_locSet_self_at _ _ i rfl ?_
  rw [filter_fold_not_mem (isPivotLow low window)
      (fun j => ⟨j, low.getD j 0, PivotType.low⟩) (fun j => rfl) i s _ hmem_s]
  exact filter_of_nodup_map _ (fun j => rfl) i _ (hndst.filter _)

theorem pivot_double_qualify_low_wins_witness :
    ((identify_pivot_points [1, 5, 1] [2, 1, 2] 1).filter fun r => r.idx == 1)
      = [⟨1, ([2, 1, 2] : List ℚ).getD 1 0, PivotType.low⟩] :=
  pivot_double_qualify_low_wins [1, 5, 1] [2, 1, 2] 1 1
    (by with_unfolding_all decide) (by with_unfolding_all decide)
    (by omega) (by with_unfolding_all decide)

/-!
## C8: the "recent MACD crossover" scan and its effective window
-/

/-- C8 counterexample: on `stepCloses` the only MACD/Signal crossover
sits at index 5 — the first bar of the 5-bar tail — so the claim's
"some index among the last 5 bars" holds, yet the code prints nothing:
`last_5['MACD'].shift(1)` is NaN at the tail's first row, which
silently shrinks the scanned window to the last 4 bars. -/
theorem macd_recent_window_counterexample :
    claim_bullish5 stepCloses = true ∧ macd_recent_note stepCloses = .quiet := by
  constructor
  · with_unfolding_all decide
  · with_unfolding_all decide

theorem emaGo_length (α : ℚ) : ∀ (xs : List ℚ) (prev : ℚ), (emaGo α prev xs).length = xs.length
  | [], _ => rfl
  | x :: rest, prev => by
      rw [emaGo]
      simp [emaGo_length α rest]

theorem ema_length (xs : List ℚ) (span : Nat) : (ema xs span).length = xs.length := by
  cases xs with
  | nil => rfl
  | cons x rest => simp [ema, emaGo_length]

theorem signal_length (close : List ℚ) :
    (signal_line close).length = (macd_line close).length := by
  rw [signal_line, ema_length]

theorem shiftO_length (xs : List (Option ℚ)) : (shiftO xs).length = xs.length := by
  cases xs with
  | nil => rfl
  | cons x rest => simp [shiftO]

theorem shiftO_getElem_zero (xs : List (Option ℚ)) (h : xs ≠ []) :
    (shiftO xs)[0]? = some none := by
  cases xs with
  | nil => exact absurd rfl h
  | cons x rest => simp [shiftO]

theorem shiftO_getElem_succ (xs : List (Option ℚ)) (j : Nat) (h : j + 1 < xs.length) :
    (shiftO xs)[j + 1]? = xs[j]? := by
  cases xs with
  | nil => simp at h
  | cons x rest =>
      simp only [shiftO, List.getElem?_cons_succ]
      rw [List.getElem?_dropLast]
      rw [if_pos (by simp at h ⊢; omega)]

theorem any_id_iff (l : List Bool) : l.any id = true ↔ ∃ j : Nat, l[j]? = some true := by
  rw [List.any_eq_true]
  constructor
  · rintro ⟨x, hx, hxt⟩
    have hx' : x = true := by simpa using hxt
    subst hx'
    obtain ⟨j, hj⟩ := List.mem_iff_getElem?.mp hx
    exact ⟨j, hj⟩
  · rintro ⟨j, hj⟩
    exact ⟨true, List.mem_iff_getElem?.mpr ⟨j, hj⟩, rfl⟩

theorem tail5_map_length (m : List ℚ) :
    ((tail5 m).map some).length = m.length - (m.length - 5) := by
  simp [tail5]

theorem tail5_map_getElem (m : List ℚ) (j : Nat) (h : m.length - 5 + j < m.length) :
    ((tail5 m).map some)[j]? = some (some (m.getD (m.length - 5 + j) 0)) := by
  rw [List.getElem?_map, tail5, List.getElem?_drop, List.getElem?_eq_getElem h,
    Option.map_some', List.getD_eq_getElem m 0 h]

theorem tail5_scan_iff (m s : List ℚ) (hs : s.length = m.length)
    (c1 c2 : Option ℚ → Option ℚ → Bool)
    (hc2none : ∀ y, c2 none y = false) :
    ((List.zipWith (· && ·)
        (List.zipWith c1 ((tail5 m).map some) ((tail5 s).map some))
        (List.zipWith c2 (shiftO ((tail5 m).map some))
          (shiftO ((tail5 s).map some)))).any id = true)
    ↔ ∃ t : Nat, m.length - 5 + 1 ≤ t ∧ t < m.length ∧
        c1 (some (m.getD t 0)) (some (s.getD t 0)) = true ∧
        c2 (some (m.getD (t - 1) 0)) (some (s.getD (t - 1) 0)) = true := by
  have hmt : ((tail5 m).map some).length = m.length - (m.length - 5) := tail5_map_length m
  have hst : ((tail5 s).map some).length = m.length - (m.length - 5) := by
    rw [tail5_map_length s, hs]
  have hsget : ∀ j : Nat, m.length - 5 + j < m.length →
      ((tail5 s).map some)[j]? = some (some (s.getD (m.length - 5 + j) 0)) := by
    intro j hj
    have h' : s.length - 5 + j < s.length := by omega
    have hres := tail5_map_getElem s j h'
    rw [show s.length - 5 + j = m.length - 5 + j from by omega] at hres
    exact hres
  constructor
  · rw [any_id_iff]
    rintro ⟨j, hj⟩
    rw [List.getElem?_zipWith] at hj
    cases hA : (List.zipWith c1 ((tail5 m).map some) ((tail5 s).map some))[j]? with
    | none => rw [hA] at hj; simp at hj
    | some a =>
        cases hB : (List.zipWith c2 (shiftO ((tail5 m).map some))
            (shiftO ((tail5 s).map some)))[j]? with
        | none => rw [hA, hB] at hj; simp at hj
        | some b =>
            rw [hA, hB] at hj
            simp only [Option.some.injEq] at hj
            rw [Bool.and_eq_true] at hj
            obtain ⟨ha, hb⟩ := hj
            have hjlt : j < ((tail5 m).map some).length := by
              obtain ⟨h1, _⟩ := List.getElem?_eq_some_iff.mp hA
              rw [List.length_zipWith] at h1
              exact (lt_min_iff.mp h1).1
            cases j with
            | zero =>
                have hmne : ((tail5 m).map some) ≠ [] := by
                  intro hnil
                  rw [hnil] at hjlt
                  simp at hjlt
                have hsne : ((tail5 s).map some) ≠ [] := by
                  intro hnil
                  have hlen := congrArg List.length hnil
                  rw [hst] at hlen
                  rw [hmt] at hjlt
                  simp at hlen
                  omega
                rw [List.getElem?_zipWith, shiftO_getElem_zero _ hmne,
                  shiftO_getElem_zero _ hsne] at hB
                dsimp only at hB
                injection hB with hB2
                rw [hc2none none] at hB2
                rw [← hB2] at hb
                exact Bool.noConfusion hb
            | succ k =>
                have hk1 : m.length - 5 + (k + 1) < m.length := by
                  rw [hmt] at hjlt
                  omega
                have hk0 : m.length - 5 + k < m.length := by omega
                rw [List.getElem?_zipWith, tail5_map_getElem m (k + 1) hk1,
                  hsget (k + 1) hk1] at hA
                have hbm : k + 1 < ((tail5 m).map some).length := hjlt
                have hbs : k + 1 < ((tail5 s).map some).length := by
                  rw [hst]
                  rw [hmt] at hjlt
                  exact hjlt
                rw [List.getElem?_zipWith, shiftO_getElem_succ _ k hbm,
                  shiftO_getElem_succ _ k hbs, tail5_map_getElem m k hk0,
                  hsget k hk0] at hB
                dsimp only at hA hB
                injection hA with hA2
                injection hB with hB2
                refine ⟨m.length - 5 + (k + 1), by omega, hk1, ?_, ?_⟩
                · exact hA2.trans ha
                · rw [show m.length - 5 + (k + 1) - 1 = m.length - 5 + k from by omega]
                  exact hB2.trans hb
  · rintro ⟨t, ht1, ht2, hc1, hc2⟩
    rw [any_id_iff]
    obtain ⟨k, hk⟩ : ∃ k : Nat, t = m.length - 5 + (k + 1) := ⟨t - (m.length - 5) - 1, by omega⟩
    subst hk
    have hk1 : m.length - 5 + (k + 1) < m.length := ht2
    have hk0 : m.length - 5 + k < m.length := by omega
    have hbm : k + 1 < ((tail5 m).map some).length := by
      rw [hmt]
      omega
    have hbs : k + 1 < ((tail5 s).map some).length := by
      rw [hst]
      omega
    refine ⟨k + 1, ?_⟩
    rw [List.getElem?_zipWith, List.getElem?_zipWith, tail5_map_getElem m (k + 1) hk1,
      hsget (k + 1) hk1, List.getElem?_zipWith, shiftO_getElem_succ _ k hbm,
      shiftO_getElem_succ _ k hbs, tail5_map_getElem m k hk0, hsget k hk0]
    rw [show m.length - 5 + (k + 1) - 1 = m.length - 5 + k from by omega] at hc2
    dsimp only
    rw [hc1, hc2]
    rfl

theorem bool_eq_of_iff {a b : Bool} (h : a = true ↔ b = true) : a = b := by
  cases a <;> cases b <;> simp_all

theorem recent_bullish_iff (close : List ℚ) :
    recent_bullish close = true ↔ ∃ t : Nat,
      (macd_line close).length - 5 + 1 ≤ t ∧ t < (macd_line close).length ∧
      (signal_line close).getD t 0 < (macd_line close).getD t 0 ∧
      (macd_line close).getD (t - 1) 0 ≤ (signal_line close).getD (t - 1) 0 := by
  unfold recent_bullish
  dsimp only
  rw [tail5_scan_iff (macd_line close) (signal_line close) (signal_length close) optGT optLE
    (fun y => by cases y <;> rfl)]
  simp only [optGT, optLE, decide_eq_true_eq]

theorem bullish4_iff (close : List ℚ) :
    bullish4 close = true ↔ ∃ t : Nat,
      (macd_line close).length - 5 + 1 ≤ t ∧ t < (macd_line close).length ∧
      (signal_line close).getD t 0 < (macd_line close).getD t 0 ∧
      (macd_line close).getD (t - 1) 0 ≤ (signal_line close).getD (t - 1) 0 := by
  unfold bullish4 bullish_cross_at
  dsimp only
  rw [List.any_eq_true]
  constructor
  · rintro ⟨t, htmem, hp⟩
    rw [List.mem_range] at htmem
    simp only [Bool.and_eq_true, decide_eq_true_eq] at hp
    obtain ⟨h4, ⟨⟨h1, hn⟩, hgt⟩, hle⟩ := hp
    exact ⟨t, by omega, hn, hgt, hle⟩
  · rintro ⟨t, h5, hn, hgt, hle⟩
    refine ⟨t, List.mem_range.mpr hn, ?_⟩
    simp only [Bool.and_eq_true, decide_eq_true_eq]
    exact ⟨by omega, ⟨⟨by omega, hn⟩, hgt⟩, hle⟩

theorem recent_bullish_eq (close : List ℚ) : recent_bullish close = bullish4 close :=
  bool_eq_of_iff ((recent_bullish_iff close).trans (bullish4_iff close).symm)

theorem recent_bearish_iff (close : List ℚ) :
    recent_bearish close = true ↔ ∃ t : Nat,
      (macd_line close).length - 5 + 1 ≤ t ∧ t < (macd_line close).length ∧
      (macd_line close).getD t 0 < (signal_line close).getD t 0 ∧
      (signal_line close).getD (t - 1) 0 ≤ (macd_line close).getD (t - 1) 0 := by
  unfold recent_bearish
  dsimp only
  rw [tail5_scan_iff (macd_line close) (signal_line close) (signal_length close) optLT optGE
    (fun y => by cases y <;> rfl)]
  simp only [optLT, optGE, decide_eq_true_eq]

theorem bearish4_iff (close : List ℚ) :
    bearish4 close = true ↔ ∃ t : Nat,
      (macd_line close).length - 5 + 1 ≤ t ∧ t < (macd_line close).length ∧
      (macd_line close).getD t 0 < (signal_line close).getD t 0 ∧
      (signal_line close).getD (t - 1) 0 ≤ (macd_line close).getD (t - 1) 0 := by
  unfold bearish4 bearish_cross_at
  dsimp only
  rw [List.any_eq_true]
  constructor
  · rintro ⟨t, htmem, hp⟩
    rw [List.mem_range] at htmem
    simp only [Bool.and_eq_true, decide_eq_true_eq] at hp
    obtain ⟨h4, ⟨⟨h1, hn⟩, hlt⟩, hge⟩ := hp
    exact ⟨t, by omega, hn, hlt, hge⟩
  · rintro ⟨t, h5, hn, hlt, hge⟩
    refine ⟨t, List.mem_range.mpr hn, ?_⟩
    simp only [Bool.and_eq_true, decide_eq_true_eq]
    exact ⟨by omega, ⟨⟨by omega, hn⟩, hlt⟩, hge⟩

theorem recent_bearish_eq (close : List ℚ) : recent_bearish close = bearish4 close :=
  bool_eq_of_iff ((recent_bearish_iff close).trans (bearish4_iff close).symm)

/-- C8 amended: the user-facing summary reports a recent bullish MACD
crossover exactly when a bullish cross (MACD[t] > Signal[t] and
MACD[t-1] <= Signal[t-1]) exists at some index among the last 4 bars —
the 5-bar tail's first row is lost because `shift(1)` runs inside the
tail and feeds it a NaN previous value — and reports a bearish
crossover exactly when no such bullish cross exists and a bearish cross
exists among the last 4 bars (the `elif` suppresses it otherwise). -/
theorem macd_recent_note_characterisation (close : List ℚ) :
    (macd_recent_note close = .bullishNote ↔ bullish4 close = true) ∧
    (macd_recent_note close = .bearishNote ↔
      bullish4 close = false ∧ bearish4 close = true) := by
  unfold macd_recent_note
  rw [recent_bullish_eq, recent_bearish_eq]
  cases hb : bullish4 close <;> cases hbe : bearish4 close <;> simp

theorem find_clusters_characterisation_witness :
    find_clusters [100, 20201 / 200, 300] = clusters_spec [100, 20201 / 200, 300] :=
  find_clusters_characterisation [100, 20201 / 200, 300]

theorem macd_recent_note_characterisation_witness :
    (macd_recent_note stepCloses = .bullishNote ↔ bullish4 stepCloses = true) ∧
    (macd_recent_note stepCloses = .bearishNote ↔
      bullish4 stepCloses = false ∧ bearish4 stepCloses = true) :=
  macd_recent_note_characterisation stepCloses
